import Mathlib

/-
Verification of the expression-parser core (lexer.rs, parser.rs, vm.rs of
DanielSchuette/expr_parser) against its natural-language specification.

The Rust code is shallowly embedded:
  * `i64` is modelled as `Int` with explicit two's-complement wraparound
    (`i64wrap`), matching release-mode wrapping arithmetic; operations that
    panic in every build profile (division/remainder overflow, remainder by
    zero, out-of-bounds indexing, `Option::unwrap` on `None`) are modelled
    as explicit `panic` outcomes.
  * `usize` positions are `Nat`; the parser's `pos - 1` wraps to
    `2^64 - 1` at zero (`usub1`), as release-mode Rust does.  (A debug build
    panics right at the underflow; every input shown below to reach the
    wrapped position panics in a debug build at that same point, only with
    the subtract-overflow message instead of the later index panic.)
  * The lexer's scanning loop is written with an explicit `Option Int` mode
    so that it is structurally recursive: mode `some n` is "inside
    `get_number`, having accumulated `n`".  `lex_scan_get_number` proves the
    fused loop equal to the source shape (run `get_number`, push the
    `Number` token, continue scanning).
  * The four mutually recursive parser functions are one structurally
    recursive function `parseGo` over a fuel argument plus a grammar-level
    tag; `parse_expr`/`parse_term`/`parse_factor`/`parse_exponent` are the
    source-named wrappers.  The top-level `parse` supplies fuel that the
    inputs below never exhaust, and every universal theorem is conditioned
    on a returned result, so fuel never weakens a statement.
  * `vm.rs` matches on a `Terminal::NonTerminal` variant that does not exist
    in `parser.rs`'s `Terminal` enum; that (dead, uncompilable) arm sits
    between the `Paren` and `Literal` arms and is omitted here.
-/

namespace ExprParser

/-! ## Machine-integer model -/

/-- Two's-complement wraparound to the `i64` range, as Rust release-mode
arithmetic does. -/
def i64wrap (x : Int) : Int :=
  (x + 9223372036854775808) % 18446744073709551616 - 9223372036854775808

/-- `i64::MIN`. -/
def i64min : Int := -9223372036854775808

/-- `usize` maximum value; `pos - 1` wraps to it at zero in release mode. -/
def usizeMax : Nat := 18446744073709551615

/-- Wrapping `usize` decrement, modelling Rust release-mode `pos - 1`. -/
def usub1 (n : Nat) : Nat := if n = 0 then usizeMax else n - 1

/-! ## Lexer (lexer.rs) -/

/-- `Token` from lexer.rs. -/
inductive Token where
  | OpAdd
  | OpSub
  | OpMod
  | OpMult
  | OpDiv
  | OpExp
  | LeftParen
  | RightParen
  | Number (n : Int)
deriving DecidableEq, Repr

/-- `LexerError` from lexer.rs: message, scan-step counter at the fault, and
the tokens produced before the fault. -/
structure LexerError where
  msg : String
  token_no : Nat
  tokens : List Token
deriving DecidableEq, Repr

/-- Numeric value of a digit character, as Rust's
`c.to_string().parse::<i64>()` yields for `'0'..='9'`. -/
def charVal (c : Char) : Int := (c.toNat : Int) - 48

/-- The `LexerError` message the lexer produces for an unexpected
character. -/
def badCharMsg (c : Char) : String :=
  "Unexpected character `" ++ c.toString ++ "\x27"

/-- What the scanning loop of `lex` does with one peeked character: start a
number, emit a fixed token, skip a space, or fail.  This is the `match c`
dispatch of lexer.rs in the order the source writes its arms. -/
inductive ScanStep where
  | beginNum (v : Int)
  | emit (t : Token)
  | skip
  | fault
deriving DecidableEq, Repr

/-- The character dispatch of `lex` from lexer.rs. -/
def classify (c : Char) : ScanStep :=
  if c.isDigit then .beginNum (charVal c)
  else if c == '+' then .emit Token.OpAdd
  else if c == '-' then .emit Token.OpSub
  else if c == '%' then .emit Token.OpMod
  else if c == '*' then .emit Token.OpMult
  else if c == '/' then .emit Token.OpDiv
  else if c == '^' then .emit Token.OpExp
  else if c == '(' then .emit Token.LeftParen
  else if c == ')' then .emit Token.RightParen
  else if c == ' ' then .skip
  else .fault

/-- `get_number` from lexer.rs: greedily consume further digit characters,
accumulating `number * 10 + digit` with `i64` (wrapping) arithmetic, and
return the accumulated number together with the unconsumed rest. -/
def get_number : Int → List Char → Int × List Char
  | n, [] => (n, [])
  | n, c :: cs =>
    match classify c with
    | .beginNum v => get_number (i64wrap (n * 10 + v)) cs
    | _ => (n, c :: cs)

/-- The scanning loop of `lex` from lexer.rs.  `progress` is the scan-step
counter (incremented once per number, operator, space or faulting
character); `acc` is the token vector built so far; the last argument is
`some n` exactly while the source sits inside `get_number`'s peeking loop
having accumulated `n` (digits consumed there advance no scan step). -/
def lex_scan : List Char → Nat → List Token → Option Int → Except LexerError (List Token)
  | [], _, acc, none => .ok acc
  | [], _, acc, some n => .ok (acc ++ [Token.Number n])
  | c :: cs, progress, acc, some n =>
    match classify c with
    | .beginNum v => lex_scan cs progress acc (some (i64wrap (n * 10 + v)))
    | .emit t => lex_scan cs (progress + 1) ((acc ++ [Token.Number n]) ++ [t]) none
    | .skip => lex_scan cs (progress + 1) (acc ++ [Token.Number n]) none
    | .fault => .error ⟨badCharMsg c, progress + 1, acc ++ [Token.Number n]⟩
  | c :: cs, progress, acc, none =>
    match classify c with
    | .beginNum v => lex_scan cs (progress + 1) acc (some v)
    | .emit t => lex_scan cs (progress + 1) (acc ++ [t]) none
    | .skip => lex_scan cs (progress + 1) acc none
    | .fault => .error ⟨badCharMsg c, progress + 1, acc⟩

/-- `lex` from lexer.rs. -/
def lex (input : String) : Except LexerError (List Token) :=
  lex_scan input.data 0 [] none

/-- `lex` on a raw character sequence (used to speak about lexing a prefix
of an input). -/
def lexChars (cs : List Char) : Except LexerError (List Token) :=
  lex_scan cs 0 [] none

/-! ## AST (parser.rs) -/

/-- `NonTerminal` from parser.rs: the grammar level a node was produced at. -/
inductive NonTerminal where
  | Expression
  | Term
  | Factor
  | Exponent
deriving DecidableEq, Repr

/-- `Terminal` from parser.rs.  (`vm.rs` additionally matches a
`NonTerminal` variant that this enum does not have.) -/
inductive Terminal where
  | Sum
  | Sub
  | Mod
  | Mult
  | Div
  | Exp
  | Paren
  | Literal (n : Int)
deriving DecidableEq, Repr

/-- `NodeType` from parser.rs. -/
inductive NodeType where
  | Root
  | Branch
  | Leaf
deriving DecidableEq, Repr

/-- `ParseNode` from parser.rs: left/right optional children, node type,
terminal, non-terminal and diagnostic depth. -/
inductive ParseNode where
  | mk (left_child : Option ParseNode) (right_child : Option ParseNode)
      (ntype : NodeType) (terminal : Terminal) (non_terminal : NonTerminal)
      (depth : Nat)
deriving Repr

/-- `get_lchild` accessor. -/
def ParseNode.left_child : ParseNode → Option ParseNode
  | .mk l _ _ _ _ _ => l

/-- `get_rchild` accessor. -/
def ParseNode.right_child : ParseNode → Option ParseNode
  | .mk _ r _ _ _ _ => r

def ParseNode.ntype : ParseNode → NodeType
  | .mk _ _ ty _ _ _ => ty

def ParseNode.terminal : ParseNode → Terminal
  | .mk _ _ _ t _ _ => t

def ParseNode.non_terminal : ParseNode → NonTerminal
  | .mk _ _ _ _ nt _ => nt

/-- `get_depth` accessor. -/
def ParseNode.depth : ParseNode → Nat
  | .mk _ _ _ _ _ d => d

/-- `node.ntype = NodeType::Root`, the mutation `parse` performs on the
returned root. -/
def ParseNode.withRootType : ParseNode → ParseNode
  | .mk l r _ t nt d => .mk l r NodeType.Root t nt d

/-- `ParserError` from parser.rs. -/
structure ParserError where
  msg : String
  token_no : Nat
  lexer : List Token
deriving DecidableEq, Repr

/-- Rust `{:?}` rendering of a token, as used in parser error messages. -/
def tokenDebug : Token → String
  | .OpAdd => "OpAdd"
  | .OpSub => "OpSub"
  | .OpMod => "OpMod"
  | .OpMult => "OpMult"
  | .OpDiv => "OpDiv"
  | .OpExp => "OpExp"
  | .LeftParen => "LeftParen"
  | .RightParen => "RightParen"
  | .Number n => "Number(" ++ toString n ++ ")"

/-- Rust `{:?}` rendering of an `Option<Token>`. -/
def optionTokenDebug : Option Token → String
  | none => "None"
  | some t => "Some(" ++ tokenDebug t ++ ")"

/-- Result of the inner parser functions
(`Result<(ParseNode, usize), ParserError>` plus fuel exhaustion). -/
inductive PResult where
  | ok (node : ParseNode) (pos : Nat)
  | err (e : ParserError)
  | noFuel
deriving Repr

/-! ## Parser (parser.rs)

The parser scans the token vector from right to left: `parse` starts the
recursion at index `tokens.len() - 1` and every consumed token moves the
position down by one with wrapping `usize` arithmetic (`usub1`). -/

/-- Tag selecting one of the four mutually recursive parser functions. -/
inductive GKind where
  | expr
  | term
  | factor
  | exponent
deriving DecidableEq, Repr

/-- The four mutually recursive functions `parse_expr`, `parse_term`,
`parse_factor` and `parse_exponent` of parser.rs, as one structurally
recursive function over fuel and a grammar-level tag (every source-level
call decrements the fuel).  Each branch is a direct transcription of the
corresponding source function. -/
def parseGo : Nat → GKind → List Token → Nat → PResult
  | 0, _, _, _ => .noFuel
  | fuel + 1, GKind.expr, tokens, pos =>
    match parseGo fuel GKind.term tokens pos with
    | .ok lhs pos1 =>
      match tokens.get? pos1 with
      | some Token.OpAdd =>
        match parseGo fuel GKind.expr tokens (usub1 pos1) with
        | .ok rhs pos2 =>
          .ok (ParseNode.mk (some lhs) (some rhs) NodeType.Branch Terminal.Sum
            NonTerminal.Expression (lhs.depth + 1)) pos2
        | r => r
      | some Token.OpSub =>
        match parseGo fuel GKind.expr tokens (usub1 pos1) with
        | .ok rhs pos2 =>
          .ok (ParseNode.mk (some lhs) (some rhs) NodeType.Branch Terminal.Sub
            NonTerminal.Expression (lhs.depth + 1)) pos2
        | r => r
      | some Token.OpMod =>
        match parseGo fuel GKind.expr tokens (usub1 pos1) with
        | .ok rhs pos2 =>
          .ok (ParseNode.mk (some lhs) (some rhs) NodeType.Branch Terminal.Mod
            NonTerminal.Expression (lhs.depth + 1)) pos2
        | r => r
      | _ => .ok lhs pos1
    | r => r
  | fuel + 1, GKind.term, tokens, pos =>
    match parseGo fuel GKind.factor tokens pos with
    | .ok lhs pos1 =>
      match tokens.get? pos1 with
      | some Token.OpMult =>
        match parseGo fuel GKind.term tokens (usub1 pos1) with
        | .ok rhs pos2 =>
          .ok (ParseNode.mk (some lhs) (some rhs) NodeType.Branch Terminal.Mult
            NonTerminal.Term (lhs.depth + 1)) pos2
        | r => r
      | some Token.OpDiv =>
        match parseGo fuel GKind.term tokens (usub1 pos1) with
        | .ok rhs pos2 =>
          .ok (ParseNode.mk (some lhs) (some rhs) NodeType.Branch Terminal.Div
            NonTerminal.Term (lhs.depth + 1)) pos2
        | r => r
      | _ => .ok lhs pos1
    | r => r
  | fuel + 1, GKind.factor, tokens, pos =>
    match parseGo fuel GKind.exponent tokens pos with
    | .ok lhs pos1 =>
      match tokens.get? pos1 with
      | some Token.OpExp =>
        match parseGo fuel GKind.factor tokens (usub1 pos1) with
        | .ok rhs pos2 =>
          .ok (ParseNode.mk (some lhs) (some rhs) NodeType.Branch Terminal.Exp
            NonTerminal.Factor (lhs.depth + 1)) pos2
        | r => r
      | _ => .ok lhs pos1
    | r => r
  | fuel + 1, GKind.exponent, tokens, pos =>
    match tokens.get? pos with
    | none => .err ⟨"Unexpected end of input", pos, []⟩
    | some (Token.Number n) =>
      .ok (ParseNode.mk none none NodeType.Leaf (Terminal.Literal n)
        NonTerminal.Exponent 0) (usub1 pos)
    | some Token.RightParen =>
      match parseGo fuel GKind.expr tokens (usub1 pos) with
      | .ok node pos2 =>
        match tokens.get? pos2 with
        | some Token.LeftParen =>
          if pos2 = 0 then
            .ok (ParseNode.mk (some node) none NodeType.Branch Terminal.Paren
              NonTerminal.Exponent (node.depth + 1)) pos2
          else
            .ok (ParseNode.mk (some node) none NodeType.Branch Terminal.Paren
              NonTerminal.Exponent (node.depth + 1)) (pos2 - 1)
        | _ =>
          .err ⟨"Expected closing parenthesis but found " ++
            optionTokenDebug (tokens.get? (usub1 pos2)), pos2, []⟩
      | r => r
    | some c => .err ⟨"Unexpected token " ++ tokenDebug c, pos, []⟩

/-- `parse_expr` from parser.rs. -/
def parse_expr (fuel : Nat) (tokens : List Token) (pos : Nat) : PResult :=
  parseGo fuel GKind.expr tokens pos

/-- `parse_term` from parser.rs. -/
def parse_term (fuel : Nat) (tokens : List Token) (pos : Nat) : PResult :=
  parseGo fuel GKind.term tokens pos

/-- `parse_factor` from parser.rs. -/
def parse_factor (fuel : Nat) (tokens : List Token) (pos : Nat) : PResult :=
  parseGo fuel GKind.factor tokens pos

/-- `parse_exponent` from parser.rs. -/
def parse_exponent (fuel : Nat) (tokens : List Token) (pos : Nat) : PResult :=
  parseGo fuel GKind.exponent tokens pos

/-- Outcome of the top-level `parse`: success, a `ParserError`, or a Rust
panic (the out-of-bounds `tokens[pos]` in the leftover-input error branch). -/
inductive ParseOutcome where
  | ok (node : ParseNode)
  | err (e : ParserError)
  | panic (msg : String)
  | noFuel
deriving Repr

/-- Fuel supplied by `parse`; ample for the recursion depth the token list
can cause. -/
def parseFuel (tokens : List Token) : Nat := 8 * tokens.length + 64

/-- `parse` from parser.rs: starts `parse_expr` at the last index, accepts
only when the returned position is 0, re-labels the root, and reports
leftover input otherwise (indexing `tokens[pos]`, which panics when `pos`
wrapped past the start).  A lexer error is passed through. -/
def parse (tokens : Except LexerError (List Token)) : ParseOutcome :=
  match tokens with
  | .ok tokens =>
    match parse_expr (parseFuel tokens) tokens (usub1 tokens.length) with
    | .ok node pos =>
      if pos = 0 then .ok node.withRootType
      else
        match tokens.get? pos with
        | some t =>
          .err ⟨"Expected end of input, found " ++ tokenDebug t, pos, []⟩
        | none => .panic "index out of bounds"
    | .err e => .err e
    | .noFuel => .noFuel
  | .error e => .err ⟨e.msg, e.token_no, e.tokens⟩

/-! ## Evaluator (vm.rs)

`evaluate` flattens the tree onto an execution stack (`build_exec_stack`,
parent before left before right, so the stack top holds the last-pushed
terminal) and then pops: the first pop seeds the accumulator when it is a
literal, and afterwards each popped literal is combined with the operator
popped right after it.  The stack is a `List` whose head is the stack top. -/

/-- Outcome of `evaluate`: `Ok(i64)`, `Err(String)`, or a Rust panic. -/
inductive EvalOutcome where
  | ok (n : Int)
  | err (msg : String)
  | panic (msg : String)
deriving DecidableEq, Repr

/-- Panic message of `Option::unwrap` on `None` (the two unchecked stack
pops in `evaluate`). -/
def unwrapMsg : String := "called `Option::unwrap()` on a `None` value"

/-- Panic message of `%` with a zero divisor. -/
def remZeroMsg : String :=
  "attempt to calculate the remainder with a divisor of zero"

/-- Panic message of `/` overflow (`i64::MIN / -1`). -/
def divOverflowMsg : String := "attempt to divide with overflow"

/-- Panic message of `%` overflow (`i64::MIN % -1`). -/
def remOverflowMsg : String :=
  "attempt to calculate the remainder with overflow"

/-- `u32` cast of an `i64`, as `n as u32` truncates to the low 32 bits. -/
def u32cast (n : Int) : Nat := (n % 4294967296).toNat

/-- `build_exec_stack` from vm.rs: push this node's terminal, then (when a
left child exists) the left subtree and then the right subtree.  When the
left child is `None` the right child is ignored. -/
def build_exec_stack : ParseNode → List Terminal → List Terminal
  | .mk l r _ term _ _, stack =>
    match l with
    | none => term :: stack
    | some lchild =>
      match r with
      | none => build_exec_stack lchild (term :: stack)
      | some rchild => build_exec_stack rchild (build_exec_stack lchild (term :: stack))

/-- The pop loop of `evaluate` from vm.rs.  A popped literal is paired with
the operator popped right after it (an unchecked `unwrap`); `Paren` is
skipped with `continue`, discarding the literal.  Arithmetic wraps as in a
release build; the operations Rust checks in every profile (`/` and `%` by
zero or overflowing) panic, except that division by zero is caught and
returned as an error by the source. -/
def evalLoop : List Terminal → Int → EvalOutcome
  | [], result => .ok result
  | Terminal.Literal n :: rest, result =>
    match rest with
    | [] => .panic unwrapMsg
    | op :: rest2 =>
      match op with
      | Terminal.Sum => evalLoop rest2 (i64wrap (result + n))
      | Terminal.Sub => evalLoop rest2 (i64wrap (result - n))
      | Terminal.Mod =>
        if n = 0 then .panic remZeroMsg
        else if result = i64min ∧ n = -1 then .panic remOverflowMsg
        else evalLoop rest2 (Int.tmod result n)
      | Terminal.Mult => evalLoop rest2 (i64wrap (result * n))
      | Terminal.Div =>
        if n = 0 then .err "vm: Divison by 0"
        else if result = i64min ∧ n = -1 then .panic divOverflowMsg
        else evalLoop rest2 (Int.tdiv result n)
      | Terminal.Exp => evalLoop rest2 (i64wrap (result ^ u32cast n))
      | Terminal.Paren => evalLoop rest2 result
      | Terminal.Literal m =>
        .err ("vm: Unexpected integer literal " ++ toString m)
  | _ :: _, _ => .err "vm: Expected integer literal"

/-- `evaluate` from vm.rs: build the execution stack, seed the accumulator
from the first pop when it is a literal (`result += n` on `result = 0`),
then run the pop loop.  The first pop is an unchecked `unwrap`. -/
def evaluate (node : ParseNode) : EvalOutcome :=
  match build_exec_stack node [] with
  | [] => .panic unwrapMsg
  | top :: rest =>
    match top with
    | Terminal.Literal n => evalLoop rest (i64wrap (0 + n))
    | _ => evalLoop rest 0

/-- The full pipeline on a source string: `evaluate(parse(lex(s)))`, `none`
when parsing does not succeed. -/
def evalParsed (s : String) : Option EvalOutcome :=
  match parse (lex s) with
  | .ok t => some (evaluate t)
  | _ => none

/-- The tree returned by `parse(lex(s))`, `none` when parsing fails. -/
def parsedTree (s : String) : Option ParseNode :=
  match parse (lex s) with
  | .ok t => some t
  | _ => none

/-! ## Specification-level predicates -/

/-- Characters the lexer accepts: digits, the eight operator/parenthesis
characters, and the space. -/
def goodChar (c : Char) : Bool :=
  c.isDigit || c == '+' || c == '-' || c == '%' || c == '*' || c == '/' ||
    c == '^' || c == '(' || c == ')' || c == ' '

/-- Modelled from the spec: scan-step counting, "counted in scan steps, not
bytes".  The flag records whether the previous character was part of a digit
run: a digit starting a run costs one step, a digit extending a run costs
none, and every other accepted character (including a space) costs one. -/
def scanStepsAux : List Char → Bool → Nat
  | [], _ => 0
  | c :: cs, inNum =>
    if c.isDigit then (if inNum then 0 else 1) + scanStepsAux cs true
    else 1 + scanStepsAux cs false

/-- Modelled from the spec: the number of scan steps a character sequence
takes — a maximal digit run is one step, every other accepted character
(including a space) is one step. -/
def scanSteps (cs : List Char) : Nat := scanStepsAux cs false

/-- Scan steps taken by the characters after the first digit of a number. -/
def numSteps (cs : List Char) : Nat := scanStepsAux cs true

/-- The depth invariant claimed by the spec: every node's `depth` is
strictly greater than the depth of each of its children, tree-wide. -/
def depthGtChildren : ParseNode → Bool
  | .mk l r _ _ _ d =>
    (match l with
     | none => true
     | some x => decide (x.depth < d) && depthGtChildren x) &&
    (match r with
     | none => true
     | some x => decide (x.depth < d) && depthGtChildren x)

/-- The depth invariant the parser actually maintains: every node with a
left child has `depth` exactly the left child's depth plus one; the right
child is unconstrained. -/
def depthLeftInv : ParseNode → Bool
  | .mk l r _ _ _ d =>
    (match l with
     | none => true
     | some x => decide (d = x.depth + 1) && depthLeftInv x) &&
    (match r with
     | none => true
     | some x => depthLeftInv x)

/-- A node whose terminal is a literal has no children.  The parser only
ever stores a `Literal` terminal in childless leaves. -/
def rootOk : ParseNode → Bool
  | .mk l r _ (Terminal.Literal _) _ _ => l.isNone && r.isNone
  | _ => true

/-- The `Number` payload of a token, `none` for operators and parentheses. -/
def numOf : Token → Option Int
  | Token.Number n => some n
  | _ => none

/-- The number values of a token sequence, in input order. -/
def tokenNums (ts : List Token) : List Int := ts.filterMap numOf

/-- The literal values at a tree's leaves, in left-to-right (in-order)
sequence. -/
def leaves : ParseNode → List Int
  | .mk (some l) (some r) _ _ _ _ => leaves l ++ leaves r
  | .mk (some l) none _ _ _ _ => leaves l
  | .mk none _ _ (Terminal.Literal n) _ _ => [n]
  | .mk none _ _ _ _ _ => []

/-- The contiguous token segment at indices `lo..hi` (inclusive). -/
def seg (tokens : List Token) (lo hi : Nat) : List Token :=
  (tokens.drop lo).take (hi + 1 - lo)

/-- Expression-level (lowest-precedence) operator terminals. -/
def exprLevel : Terminal → Bool
  | Terminal.Sum => true
  | Terminal.Sub => true
  | Terminal.Mod => true
  | _ => false

/-- Term-level operator terminals. -/
def termLevel : Terminal → Bool
  | Terminal.Mult => true
  | Terminal.Div => true
  | _ => false

/-- A parent/left-child terminal pair that does not extend a
same-precedence chain through the left child. -/
def chainOk (parent child : Terminal) : Bool :=
  !(exprLevel parent && exprLevel child) &&
    !(termLevel parent && termLevel child) &&
    !(parent == Terminal.Exp && child == Terminal.Exp)

/-- Right-leaning shape: nowhere in the tree does a same-precedence chain
extend through a left child — a `Sum`/`Sub`/`Mod` node never has a
`Sum`/`Sub`/`Mod` left child, a `Mult`/`Div` node never a `Mult`/`Div` left
child, an `Exp` node never an `Exp` left child. -/
def rightSkewed : ParseNode → Bool
  | .mk l r _ term _ _ =>
    (match l with
     | none => true
     | some x => chainOk term x.terminal && rightSkewed x) &&
    (match r with
     | none => true
     | some x => rightSkewed x)

/-- The terminals each grammar level can return: `parse_exponent` yields
literal and parenthesis nodes, `parse_factor` adds `Exp`, `parse_term` adds
`Mult`/`Div`, `parse_expr` anything. -/
def levelOk : GKind → Terminal → Bool
  | GKind.expr, _ => true
  | GKind.term, t => !(exprLevel t)
  | GKind.factor, t => !(exprLevel t) && !(termLevel t)
  | GKind.exponent, t => !(exprLevel t) && !(termLevel t) && !(t == Terminal.Exp)

/-! ## Lexer lemmas -/

/-- The fused number mode of `lex_scan` equals the source shape: run
`get_number` to completion, push the finished `Number` token, and continue
scanning in normal mode. -/
theorem lex_scan_get_number (cs : List Char) (p : Nat) (acc : List Token) (n : Int) :
    lex_scan cs p acc (some n) =
      lex_scan (get_number n cs).2 p (acc ++ [Token.Number (get_number n cs).1]) none := by
  induction cs generalizing n with
  | nil => rfl
  | cons c cs ih =>
    cases hcl : classify c with
    | beginNum v => simp only [lex_scan, get_number, hcl]; exact ih _
    | emit t => simp only [lex_scan, get_number, hcl]
    | skip => simp only [lex_scan, get_number, hcl]
    | fault => simp only [lex_scan, get_number, hcl]

set_option maxHeartbeats 1600000 in
/-- Exhaustive description of the character dispatch: a digit starts a
number, and on non-digits the accepted characters split into emitted tokens
and the skipped space, while exactly the rejected characters fault. -/
theorem classify_spec (c : Char) :
    (c.isDigit = true ∧ classify c = ScanStep.beginNum (charVal c)) ∨
    (c.isDigit = false ∧ goodChar c = true ∧ ∃ t, classify c = ScanStep.emit t) ∨
    (c.isDigit = false ∧ goodChar c = true ∧ classify c = ScanStep.skip) ∨
    (c.isDigit = false ∧ goodChar c = false ∧ classify c = ScanStep.fault) := by
  unfold classify goodChar
  split_ifs <;> simp_all

theorem classify_beginNum_digit {c : Char} {v : Int}
    (h : classify c = ScanStep.beginNum v) : c.isDigit = true := by
  rcases classify_spec c with ⟨hd, _⟩ | ⟨_, _, _, hcl⟩ | ⟨_, _, hcl⟩ | ⟨_, _, hcl⟩
  · exact hd
  all_goals rw [h] at hcl
  all_goals cases hcl

theorem classify_emit_not_digit {c : Char} {t : Token}
    (h : classify c = ScanStep.emit t) : c.isDigit = false := by
  rcases classify_spec c with ⟨_, hcl⟩ | ⟨hd, _, _, _⟩ | ⟨hd, _, _⟩ | ⟨hd, _, _⟩
  · rw [h] at hcl; cases hcl
  all_goals exact hd

theorem classify_skip_not_digit {c : Char}
    (h : classify c = ScanStep.skip) : c.isDigit = false := by
  rcases classify_spec c with ⟨_, hcl⟩ | ⟨hd, _, _, _⟩ | ⟨hd, _, _⟩ | ⟨hd, _, _⟩
  · rw [h] at hcl; cases hcl
  all_goals exact hd

theorem classify_fault_iff (c : Char) :
    classify c = ScanStep.fault ↔ goodChar c = false := by
  rcases classify_spec c with ⟨hd, hcl⟩ | ⟨_, hg, _, hcl⟩ | ⟨_, hg, hcl⟩ | ⟨_, hg, hcl⟩
  · have hg : goodChar c = true := by simp [goodChar, hd]
    rw [hcl, hg]
    constructor
    · intro hx; cases hx
    · intro hx; cases hx
  · rw [hcl, hg]
    constructor
    · intro hx; cases hx
    · intro hx; cases hx
  · rw [hcl, hg]
    constructor
    · intro hx; cases hx
    · intro hx; cases hx
  · rw [hcl, hg]
    simp

/-- Scanning a prefix of accepted characters succeeds (in either mode), and
appending any rejected character makes the scan stop right there with the
already-produced tokens and the 1-based scan-step position of that
character. -/
theorem lex_scan_good_run (pre : List Char) (hpre : ∀ d ∈ pre, goodChar d = true) :
    (∀ (p : Nat) (acc : List Token),
      ∃ toks, lex_scan pre p acc none = .ok toks ∧
        ∀ (c : Char) (post : List Char), goodChar c = false →
          lex_scan (pre ++ c :: post) p acc none =
            .error ⟨badCharMsg c, p + scanSteps pre + 1, toks⟩) ∧
    (∀ (p : Nat) (acc : List Token) (n : Int),
      ∃ toks, lex_scan pre p acc (some n) = .ok toks ∧
        ∀ (c : Char) (post : List Char), goodChar c = false →
          lex_scan (pre ++ c :: post) p acc (some n) =
            .error ⟨badCharMsg c, p + numSteps pre + 1, toks⟩) := by
  induction pre with
  | nil =>
    constructor
    · intro p acc
      refine ⟨acc, rfl, ?_⟩
      intro c post hc
      have hf : classify c = ScanStep.fault := (classify_fault_iff c).mpr hc
      simp [lex_scan, hf, scanSteps, scanStepsAux]
    · intro p acc n
      refine ⟨acc ++ [Token.Number n], rfl, ?_⟩
      intro c post hc
      have hf : classify c = ScanStep.fault := (classify_fault_iff c).mpr hc
      simp [lex_scan, hf, numSteps, scanStepsAux]
  | cons d pre ih =>
    have hd : goodChar d = true := hpre d (List.mem_cons_self d pre)
    have hpre' : ∀ e ∈ pre, goodChar e = true :=
      fun e he => hpre e (List.mem_cons_of_mem d he)
    obtain ⟨ihNone, ihSome⟩ := ih hpre'
    constructor
    · intro p acc
      cases hcl : classify d with
      | beginNum v =>
        have hdig : d.isDigit = true := classify_beginNum_digit hcl
        obtain ⟨toks, hok, herr⟩ := ihSome (p + 1) acc v
        refine ⟨toks, ?_, ?_⟩
        · simp only [lex_scan, hcl]; exact hok
        · intro c post hc
          have harith : p + scanSteps (d :: pre) + 1 = p + 1 + numSteps pre + 1 := by
            simp [scanSteps, numSteps, scanStepsAux, hdig]; omega
          rw [harith]
          simp only [List.cons_append, lex_scan, hcl]
          exact herr c post hc
      | emit t =>
        have hdig : d.isDigit = false := classify_emit_not_digit hcl
        obtain ⟨toks, hok, herr⟩ := ihNone (p + 1) (acc ++ [t])
        refine ⟨toks, ?_, ?_⟩
        · simp only [lex_scan, hcl]; exact hok
        · intro c post hc
          have harith : p + scanSteps (d :: pre) + 1 = p + 1 + scanSteps pre + 1 := by
            simp [scanSteps, scanStepsAux, hdig]; omega
          rw [harith]
          simp only [List.cons_append, lex_scan, hcl]
          exact herr c post hc
      | skip =>
        have hdig : d.isDigit = false := classify_skip_not_digit hcl
        obtain ⟨toks, hok, herr⟩ := ihNone (p + 1) acc
        refine ⟨toks, ?_, ?_⟩
        · simp only [lex_scan, hcl]; exact hok
        · intro c post hc
          have harith : p + scanSteps (d :: pre) + 1 = p + 1 + scanSteps pre + 1 := by
            simp [scanSteps, scanStepsAux, hdig]; omega
          rw [harith]
          simp only [List.cons_append, lex_scan, hcl]
          exact herr c post hc
      | fault =>
        rw [classify_fault_iff d] at hcl
        rw [hd] at hcl
        cases hcl
    · intro p acc n
      cases hcl : classify d with
      | beginNum v =>
        have hdig : d.isDigit = true := classify_beginNum_digit hcl
        obtain ⟨toks, hok, herr⟩ := ihSome p acc (i64wrap (n * 10 + v))
        refine ⟨toks, ?_, ?_⟩
        · simp only [lex_scan, hcl]; exact hok
        · intro c post hc
          have harith : p + numSteps (d :: pre) + 1 = p + numSteps pre + 1 := by
            simp [numSteps, scanStepsAux, hdig]
          rw [harith]
          simp only [List.cons_append, lex_scan, hcl]
          exact herr c post hc
      | emit t =>
        have hdig : d.isDigit = false := classify_emit_not_digit hcl
        obtain ⟨toks, hok, herr⟩ := ihNone (p + 1) ((acc ++ [Token.Number n]) ++ [t])
        refine ⟨toks, ?_, ?_⟩
        · simp only [lex_scan, hcl]; exact hok
        · intro c post hc
          have harith : p + numSteps (d :: pre) + 1 = p + 1 + scanSteps pre + 1 := by
            simp [numSteps, scanSteps, scanStepsAux, hdig]; omega
          rw [harith]
          simp only [List.cons_append, lex_scan, hcl]
          exact herr c post hc
      | skip =>
        have hdig : d.isDigit = false := classify_skip_not_digit hcl
        obtain ⟨toks, hok, herr⟩ := ihNone (p + 1) (acc ++ [Token.Number n])
        refine ⟨toks, ?_, ?_⟩
        · simp only [lex_scan, hcl]; exact hok
        · intro c post hc
          have harith : p + numSteps (d :: pre) + 1 = p + 1 + scanSteps pre + 1 := by
            simp [numSteps, scanSteps, scanStepsAux, hdig]; omega
          rw [harith]
          simp only [List.cons_append, lex_scan, hcl]
          exact herr c post hc
      | fault =>
        rw [classify_fault_iff d] at hcl
        rw [hd] at hcl
        cases hcl

/-- Claim C8.  For every input string: when the scanner reaches a character
that is not a digit, operator, parenthesis or space (every character before
it being accepted), it stops immediately and returns a `LexerError` whose
position is the 1-based scan-step position of that character and whose
token list is exactly what lexing the accepted prefix produces. -/
theorem c8_lexer_fatal_error (s : String) (pre : List Char) (c : Char)
    (post : List Char) (hs : s.data = pre ++ c :: post)
    (hpre : ∀ d ∈ pre, goodChar d = true) (hc : goodChar c = false) :
    ∃ toks, lexChars pre = Except.ok toks ∧
      lex s = Except.error ⟨badCharMsg c, scanSteps pre + 1, toks⟩ := by
  obtain ⟨toks, hok, herr⟩ := (lex_scan_good_run pre hpre).1 0 []
  refine ⟨toks, hok, ?_⟩
  have h := herr c post hc
  simp only [lex, hs]
  simpa using h

/-- Witness for C8 at the spec's own example `2+@`: the fault is at
scan-step position 3 and the tokens are those of the prefix `2+`. -/
theorem c8_lexer_fatal_error_witness :
    lex "2+@" =
      Except.error ⟨badCharMsg '@', 3, [Token.Number 2, Token.OpAdd]⟩ := by
  obtain ⟨toks, hok, herr⟩ :=
    c8_lexer_fatal_error "2+@" ['2', '+'] '@' [] rfl (by decide) (by decide)
  have h2 : lexChars ['2', '+'] = Except.ok [Token.Number 2, Token.OpAdd] := rfl
  rw [h2] at hok
  injection hok with h3
  rw [← h3] at herr
  have hs : scanSteps ['2', '+'] = 2 := rfl
  rw [hs] at herr
  exact herr

/-! ## Parser invariants -/

/-- Helper: a terminal admissible at factor level is admissible at term
level. -/
theorem levelOk_factor_term (x : Terminal) (h : levelOk GKind.factor x = true) :
    levelOk GKind.term x = true := by
  simp only [levelOk] at h ⊢
  rw [Bool.and_eq_true] at h
  exact h.1

/-- Helper: a terminal admissible at exponent level is admissible at factor
level. -/
theorem levelOk_exponent_factor (x : Terminal) (h : levelOk GKind.exponent x = true) :
    levelOk GKind.factor x = true := by
  simp only [levelOk] at h ⊢
  rw [Bool.and_eq_true] at h
  exact h.1

/-- Helper: the grammar-level bound on the operator each level emits. -/
theorem levelOk_holds_Sum : levelOk GKind.expr Terminal.Sum = true := rfl

theorem levelOk_holds_Sub : levelOk GKind.expr Terminal.Sub = true := rfl

theorem levelOk_holds_Mod : levelOk GKind.expr Terminal.Mod = true := rfl

theorem levelOk_holds_Mult : levelOk GKind.term Terminal.Mult = true := by decide

theorem levelOk_holds_Div : levelOk GKind.term Terminal.Div = true := by decide

theorem levelOk_holds_Exp : levelOk GKind.factor Terminal.Exp = true := by decide

theorem levelOk_holds_Paren : levelOk GKind.exponent Terminal.Paren = true := by decide

/-- Every node returned by the recursive parser functions satisfies the
structural invariants: a `Literal` terminal only sits in childless leaves
(`rootOk`), every node's depth is exactly its left child's depth plus one
(`depthLeftInv`), same-precedence chains never extend through a left child
(`rightSkewed`), and the node's terminal respects its grammar level
(`levelOk`). -/
theorem parseGo_inv (fuel : Nat) :
    ∀ (kind : GKind) (tokens : List Token) (pos : Nat) (t : ParseNode) (p : Nat),
      parseGo fuel kind tokens pos = PResult.ok t p →
      rootOk t = true ∧ depthLeftInv t = true ∧ rightSkewed t = true ∧
        levelOk kind t.terminal = true := by
  induction fuel with
  | zero =>
    intro kind tokens pos t p h
    simp only [parseGo] at h
    cases h
  | succ fuel ih =>
    intro kind tokens pos t p h
    cases kind with
    | expr =>
      simp only [parseGo] at h
      cases h1 : parseGo fuel GKind.term tokens pos with
      | ok lhs pos1 =>
        simp only [h1] at h
        cases h2 : tokens.get? pos1 with
        | none =>
          simp only [h2] at h
          cases h
          obtain ⟨a1, a2, a3, a4⟩ := ih _ _ _ _ _ h1
          exact ⟨a1, a2, a3, rfl⟩
        | some tok =>
          cases tok
          case OpAdd =>
            simp only [h2] at h
            cases h3 : parseGo fuel GKind.expr tokens (usub1 pos1) with
            | ok rhs pos2 =>
              simp only [h3] at h
              cases h
              obtain ⟨hr1, hd1, hrl1, hlv1⟩ := ih _ _ _ _ _ h1
              obtain ⟨hr2, hd2, hrl2, hlv2⟩ := ih _ _ _ _ _ h3
              have he : exprLevel lhs.terminal = false := by
                cases hx : exprLevel lhs.terminal
                · rfl
                · simp [levelOk, hx] at hlv1
              have hc : chainOk Terminal.Sum lhs.terminal = true := by
                simp only [chainOk]
                rw [he]
                simp [exprLevel, termLevel]
              refine ⟨by simp [rootOk], by simp [depthLeftInv, hd1, hd2], ?_, levelOk_holds_Sum⟩
              simp [rightSkewed, hc, hrl1, hrl2]
            | err e => simp only [h3] at h; cases h
            | noFuel => simp only [h3] at h; cases h
          case OpSub =>
            simp only [h2] at h
            cases h3 : parseGo fuel GKind.expr tokens (usub1 pos1) with
            | ok rhs pos2 =>
              simp only [h3] at h
              cases h
              obtain ⟨hr1, hd1, hrl1, hlv1⟩ := ih _ _ _ _ _ h1
              obtain ⟨hr2, hd2, hrl2, hlv2⟩ := ih _ _ _ _ _ h3
              have he : exprLevel lhs.terminal = false := by
                cases hx : exprLevel lhs.terminal
                · rfl
                · simp [levelOk, hx] at hlv1
              have hc : chainOk Terminal.Sub lhs.terminal = true := by
                simp only [chainOk]
                rw [he]
                simp [exprLevel, termLevel]
              refine ⟨by simp [rootOk], by simp [depthLeftInv, hd1, hd2], ?_, levelOk_holds_Sub⟩
              simp [rightSkewed, hc, hrl1, hrl2]
            | err e => simp only [h3] at h; cases h
            | noFuel => simp only [h3] at h; cases h
          case OpMod =>
            simp only [h2] at h
            cases h3 : parseGo fuel GKind.expr tokens (usub1 pos1) with
            | ok rhs pos2 =>
              simp only [h3] at h
              cases h
              obtain ⟨hr1, hd1, hrl1, hlv1⟩ := ih _ _ _ _ _ h1
              obtain ⟨hr2, hd2, hrl2, hlv2⟩ := ih _ _ _ _ _ h3
              have he : exprLevel lhs.terminal = false := by
                cases hx : exprLevel lhs.terminal
                · rfl
                · simp [levelOk, hx] at hlv1
              have hc : chainOk Terminal.Mod lhs.terminal = true := by
                simp only [chainOk]
                rw [he]
                simp [exprLevel, termLevel]
              refine ⟨by simp [rootOk], by simp [depthLeftInv, hd1, hd2], ?_, levelOk_holds_Mod⟩
              simp [rightSkewed, hc, hrl1, hrl2]
            | err e => simp only [h3] at h; cases h
            | noFuel => simp only [h3] at h; cases h
          all_goals simp only [h2] at h
          all_goals cases h
          all_goals obtain ⟨a1, a2, a3, a4⟩ := ih _ _ _ _ _ h1
          all_goals exact ⟨a1, a2, a3, rfl⟩
      | err e => simp only [h1] at h; cases h
      | noFuel => simp only [h1] at h; cases h
    | term =>
      simp only [parseGo] at h
      cases h1 : parseGo fuel GKind.factor tokens pos with
      | ok lhs pos1 =>
        simp only [h1] at h
        cases h2 : tokens.get? pos1 with
        | none =>
          simp only [h2] at h
          cases h
          obtain ⟨a1, a2, a3, a4⟩ := ih _ _ _ _ _ h1
          exact ⟨a1, a2, a3, levelOk_factor_term _ a4⟩
        | some tok =>
          cases tok
          case OpMult =>
            simp only [h2] at h
            cases h3 : parseGo fuel GKind.term tokens (usub1 pos1) with
            | ok rhs pos2 =>
              simp only [h3] at h
              cases h
              obtain ⟨hr1, hd1, hrl1, hlv1⟩ := ih _ _ _ _ _ h1
              obtain ⟨hr2, hd2, hrl2, hlv2⟩ := ih _ _ _ _ _ h3
              have ht : termLevel lhs.terminal = false := by
                cases hx : termLevel lhs.terminal
                · rfl
                · simp [levelOk, hx] at hlv1
              have hc : chainOk Terminal.Mult lhs.terminal = true := by
                simp only [chainOk]
                rw [ht]
                simp [exprLevel, termLevel]
              refine ⟨by simp [rootOk], by simp [depthLeftInv, hd1, hd2], ?_, levelOk_holds_Mult⟩
              simp [rightSkewed, hc, hrl1, hrl2]
            | err e => simp only [h3] at h; cases h
            | noFuel => simp only [h3] at h; cases h
          case OpDiv =>
            simp only [h2] at h
            cases h3 : parseGo fuel GKind.term tokens (usub1 pos1) with
            | ok rhs pos2 =>
              simp only [h3] at h
              cases h
              obtain ⟨hr1, hd1, hrl1, hlv1⟩ := ih _ _ _ _ _ h1
              obtain ⟨hr2, hd2, hrl2, hlv2⟩ := ih _ _ _ _ _ h3
              have ht : termLevel lhs.terminal = false := by
                cases hx : termLevel lhs.terminal
                · rfl
                · simp [levelOk, hx] at hlv1
              have hc : chainOk Terminal.Div lhs.terminal = true := by
                simp only [chainOk]
                rw [ht]
                simp [exprLevel, termLevel]
              refine ⟨by simp [rootOk], by simp [depthLeftInv, hd1, hd2], ?_, levelOk_holds_Div⟩
              simp [rightSkewed, hc, hrl1, hrl2]
            | err e => simp only [h3] at h; cases h
            | noFuel => simp only [h3] at h; cases h
          all_goals simp only [h2] at h
          all_goals cases h
          all_goals obtain ⟨a1, a2, a3, a4⟩ := ih _ _ _ _ _ h1
          all_goals exact ⟨a1, a2, a3, levelOk_factor_term _ a4⟩
      | err e => simp only [h1] at h; cases h
      | noFuel => simp only [h1] at h; cases h
    | factor =>
      simp only [parseGo] at h
      cases h1 : parseGo fuel GKind.exponent tokens pos with
      | ok lhs pos1 =>
        simp only [h1] at h
        cases h2 : tokens.get? pos1 with
        | none =>
          simp only [h2] at h
          cases h
          obtain ⟨a1, a2, a3, a4⟩ := ih _ _ _ _ _ h1
          exact ⟨a1, a2, a3, levelOk_exponent_factor _ a4⟩
        | some tok =>
          cases tok
          case OpExp =>
            simp only [h2] at h
            cases h3 : parseGo fuel GKind.factor tokens (usub1 pos1) with
            | ok rhs pos2 =>
              simp only [h3] at h
              cases h
              obtain ⟨hr1, hd1, hrl1, hlv1⟩ := ih _ _ _ _ _ h1
              obtain ⟨hr2, hd2, hrl2, hlv2⟩ := ih _ _ _ _ _ h3
              have hq : (lhs.terminal == Terminal.Exp) = false := by
                cases hx : lhs.terminal == Terminal.Exp
                · rfl
                · simp [levelOk, hx] at hlv1
              have hc : chainOk Terminal.Exp lhs.terminal = true := by
                simp only [chainOk]
                rw [hq]
                simp [exprLevel, termLevel]
              refine ⟨by simp [rootOk], by simp [depthLeftInv, hd1, hd2], ?_, levelOk_holds_Exp⟩
              simp [rightSkewed, hc, hrl1, hrl2]
            | err e => simp only [h3] at h; cases h
            | noFuel => simp only [h3] at h; cases h
          all_goals simp only [h2] at h
          all_goals cases h
          all_goals obtain ⟨a1, a2, a3, a4⟩ := ih _ _ _ _ _ h1
          all_goals exact ⟨a1, a2, a3, levelOk_exponent_factor _ a4⟩
      | err e => simp only [h1] at h; cases h
      | noFuel => simp only [h1] at h; cases h
    | exponent =>
      simp only [parseGo] at h
      cases h2 : tokens.get? pos with
      | none => simp only [h2] at h; cases h
      | some tok =>
        cases tok
        case Number n =>
          simp only [h2] at h
          cases h
          refine ⟨rfl, rfl, rfl, ?_⟩
          simp [levelOk, ParseNode.terminal, exprLevel, termLevel]
        case RightParen =>
          simp only [h2] at h
          cases h3 : parseGo fuel GKind.expr tokens (usub1 pos) with
          | ok node pos2 =>
            simp only [h3] at h
            cases h4 : tokens.get? pos2 with
            | none => simp only [h4] at h; cases h
            | some tk2 =>
              cases tk2
              case LeftParen =>
                simp only [h2, h4] at h
                obtain ⟨hr, hd, hrl, hlv⟩ := ih _ _ _ _ _ h3
                have hc : chainOk Terminal.Paren node.terminal = true := by
                  simp only [chainOk]
                  simp [exprLevel, termLevel]
                split at h
                · cases h
                  refine ⟨by simp [rootOk], by simp [depthLeftInv, hd], ?_,
                    levelOk_holds_Paren⟩
                  simp [rightSkewed, hc, hrl]
                · cases h
                  refine ⟨by simp [rootOk], by simp [depthLeftInv, hd], ?_,
                    levelOk_holds_Paren⟩
                  simp [rightSkewed, hc, hrl]
              all_goals simp only [h4] at h
              all_goals cases h
          | err e => simp only [h3] at h; cases h
          | noFuel => simp only [h3] at h; cases h
        all_goals simp only [h2] at h
        all_goals cases h

/-- `rootOk` ignores the node type, so re-labelling the root preserves it. -/
theorem rootOk_withRootType (n : ParseNode) :
    rootOk n.withRootType = rootOk n := by
  cases n with
  | mk l r ty term nt d => cases term <;> rfl

/-- `depthLeftInv` ignores the node type, so re-labelling the root
preserves it. -/
theorem depthLeftInv_withRootType (n : ParseNode) :
    depthLeftInv n.withRootType = depthLeftInv n := by
  cases n with
  | mk l r ty term nt d =>
    simp only [ParseNode.withRootType]
    rw [depthLeftInv.eq_def, depthLeftInv.eq_def]

/-- Both parser invariants hold of every tree the top-level `parse`
returns. -/
theorem parse_ok_inv (tks : Except LexerError (List Token)) (t : ParseNode)
    (h : parse tks = ParseOutcome.ok t) :
    rootOk t = true ∧ depthLeftInv t = true := by
  cases tks with
  | error e => simp only [parse] at h; cases h
  | ok tokens =>
    simp only [parse] at h
    cases h1 : parse_expr (parseFuel tokens) tokens (usub1 tokens.length) with
    | ok node pos =>
      simp only [h1] at h
      split at h
      · cases h
        obtain ⟨hr, hd, -, -⟩ := parseGo_inv (parseFuel tokens) _ _ _ _ _ h1
        rw [rootOk_withRootType, depthLeftInv_withRootType]
        exact ⟨hr, hd⟩
      · cases h4 : tokens.get? pos with
        | none => simp only [h4] at h; cases h
        | some tk => simp only [h4] at h; cases h
    | err e => simp only [h1] at h; cases h
    | noFuel => simp only [h1] at h; cases h

/-- `rightSkewed` ignores the node type, so re-labelling the root preserves
it. -/
theorem rightSkewed_withRootType (n : ParseNode) :
    rightSkewed n.withRootType = rightSkewed n := by
  cases n with
  | mk l r ty term nt d =>
    simp only [ParseNode.withRootType]
    rw [rightSkewed.eq_def, rightSkewed.eq_def]

/-- `leaves` ignores the node type, so re-labelling the root preserves
it. -/
theorem leaves_withRootType (n : ParseNode) :
    leaves n.withRootType = leaves n := by
  cases n with
  | mk l r ty term nt d =>
    simp only [ParseNode.withRootType]
    cases l <;> cases r <;> cases term <;> rfl

/-- Every tree the top-level `parse` returns is right-leaning: no
same-precedence chain extends through a left child. -/
theorem parse_ok_rightSkewed (tks : Except LexerError (List Token)) (t : ParseNode)
    (h : parse tks = ParseOutcome.ok t) : rightSkewed t = true := by
  cases tks with
  | error e => simp only [parse] at h; cases h
  | ok tokens =>
    simp only [parse] at h
    cases h1 : parse_expr (parseFuel tokens) tokens (usub1 tokens.length) with
    | ok node pos =>
      simp only [h1] at h
      split at h
      · cases h
        obtain ⟨-, -, hrl, -⟩ := parseGo_inv (parseFuel tokens) _ _ _ _ _ h1
        rw [rightSkewed_withRootType]
        exact hrl
      · cases h4 : tokens.get? pos with
        | none => simp only [h4] at h; cases h
        | some tk => simp only [h4] at h; cases h
    | err e => simp only [h1] at h; cases h
    | noFuel => simp only [h1] at h; cases h

/-! ## Token-order lemmas

The parser consumes a contiguous token segment right to left, so the
literal leaves of the tree it builds read, left to right, as the input's
number tokens reversed.  `parseGo_leaves` tracks the consumed segment
`[lo, pos]` through the recursion; the returned position `p` sits just left
of the segment, except that a segment reaching index 0 reports `p = 0`
(after the `pos2 == 0` guard) or the wrapped `p = usizeMax` (after `pos - 1`
underflows). -/

theorem tokenNums_append (a b : List Token) :
    tokenNums (a ++ b) = tokenNums a ++ tokenNums b := by
  simp [tokenNums, List.filterMap_append]

theorem seg_split (tokens : List Token) (lo mid hi : Nat) (h1 : lo ≤ mid)
    (h2 : 1 ≤ mid) (h3 : mid ≤ hi + 1) :
    seg tokens lo hi = seg tokens lo (mid - 1) ++ seg tokens mid hi := by
  unfold seg
  have ha : hi + 1 - lo = (mid - lo) + (hi + 1 - mid) := by omega
  have hb : mid - 1 + 1 - lo = mid - lo := by omega
  rw [ha, hb, List.take_add, List.drop_drop]
  have hcc : lo + (mid - lo) = mid := by omega
  rw [hcc]

theorem seg_single (tokens : List Token) (i : Nat) (tok : Token)
    (h : tokens.get? i = some tok) : seg tokens i i = [tok] := by
  obtain ⟨hlt, hget⟩ := List.get?_eq_some.mp h
  unfold seg
  have h1 : i + 1 - i = 1 := by omega
  rw [h1, List.drop_eq_getElem_cons hlt]
  rw [List.get_eq_getElem] at hget
  simp [hget]

theorem seg_all (tokens : List Token) (lo : Nat) (h1 : 1 ≤ tokens.length)
    (h2 : lo ≤ tokens.length) :
    seg tokens lo (tokens.length - 1) = tokens.drop lo := by
  unfold seg
  have h3 : tokens.length - 1 + 1 - lo = (tokens.drop lo).length := by
    rw [List.length_drop]
    omega
  rw [h3, List.take_length]

/-- Segment tracking for the recursive parser functions: a successful parse
from position `pos` (on a token vector of real `usize` length) consumed the
contiguous segment `[lo, pos]`, the literal leaves of the returned tree
read left to right as that segment's numbers reversed, and the returned
position `p` is `lo - 1` — reported as `0` both when `lo = 1` and (via the
`pos2 == 0` guard) when `lo = 0`, or as the wrapped `usizeMax` when the
`Number` arm decremented past index 0. -/
theorem parseGo_leaves (fuel : Nat) :
    ∀ (kind : GKind) (tokens : List Token) (pos : Nat) (t : ParseNode) (p : Nat),
      tokens.length ≤ usizeMax →
      parseGo fuel kind tokens pos = PResult.ok t p →
      pos < tokens.length ∧
      ∃ lo, lo ≤ pos ∧
        (leaves t).reverse = tokenNums (seg tokens lo pos) ∧
        (lo = p + 1 ∨ (lo = 0 ∧ p = 0) ∨ (lo = 0 ∧ p = usizeMax)) := by
  induction fuel with
  | zero =>
    intro kind tokens pos t p hlen h
    simp only [parseGo] at h
    cases h
  | succ fuel ih =>
    intro kind tokens pos t p hlen h
    cases kind with
    | expr =>
      simp only [parseGo] at h
      cases h1 : parseGo fuel GKind.term tokens pos with
      | ok lhs pos1 =>
        simp only [h1] at h
        cases h2 : tokens.get? pos1 with
        | none =>
          simp only [h2] at h
          cases h
          exact ih _ _ _ _ _ hlen h1
        | some tok =>
          cases tok
          case OpAdd =>
            simp only [h2] at h
            cases h3 : parseGo fuel GKind.expr tokens (usub1 pos1) with
            | ok rhs pos2 =>
              simp only [h3] at h
              cases h
              obtain ⟨hpos, lo1, hlo1, hl1, hd1⟩ := ih _ _ _ _ _ hlen h1
              obtain ⟨hpos2, lo2, hlo2, hl2, hd2⟩ := ih _ _ _ _ _ hlen h3
              obtain ⟨hp1lt, -⟩ := List.get?_eq_some.mp h2
              have hp1ne : pos1 ≠ 0 := by
                intro h0
                rw [h0] at hpos2
                simp [usub1] at hpos2
                omega
              have husub : usub1 pos1 = pos1 - 1 := by simp [usub1, hp1ne]
              rw [husub] at hpos2 hlo2 hl2
              have hlo1eq : lo1 = pos1 + 1 := by
                rcases hd1 with hq | ⟨hq, hq2⟩ | ⟨hq, hq2⟩
                · exact hq
                · exact absurd hq2 hp1ne
                · omega
              rw [hlo1eq] at hl1 hlo1
              refine ⟨hpos, lo2, by omega, ?_, hd2⟩
              have e1 : seg tokens lo2 pos = seg tokens lo2 (pos1 - 1) ++ seg tokens pos1 pos :=
                seg_split tokens lo2 pos1 pos (by omega) (by omega) (by omega)
              have e2 : seg tokens pos1 pos = seg tokens pos1 pos1 ++ seg tokens (pos1 + 1) pos := by
                have e := seg_split tokens pos1 (pos1 + 1) pos (by omega) (by omega) (by omega)
                simpa using e
              have e3 : seg tokens pos1 pos1 = [Token.OpAdd] := seg_single tokens pos1 _ h2
              rw [e1, e2, e3, tokenNums_append, tokenNums_append]
              simp only [leaves, List.reverse_append]
              rw [hl1, hl2]
              simp [tokenNums, numOf]
            | err e => simp only [h3] at h; cases h
            | noFuel => simp only [h3] at h; cases h
          case OpSub =>
            simp only [h2] at h
            cases h3 : parseGo fuel GKind.expr tokens (usub1 pos1) with
            | ok rhs pos2 =>
              simp only [h3] at h
              cases h
              obtain ⟨hpos, lo1, hlo1, hl1, hd1⟩ := ih _ _ _ _ _ hlen h1
              obtain ⟨hpos2, lo2, hlo2, hl2, hd2⟩ := ih _ _ _ _ _ hlen h3
              obtain ⟨hp1lt, -⟩ := List.get?_eq_some.mp h2
              have hp1ne : pos1 ≠ 0 := by
                intro h0
                rw [h0] at hpos2
                simp [usub1] at hpos2
                omega
              have husub : usub1 pos1 = pos1 - 1 := by simp [usub1, hp1ne]
              rw [husub] at hpos2 hlo2 hl2
              have hlo1eq : lo1 = pos1 + 1 := by
                rcases hd1 with hq | ⟨hq, hq2⟩ | ⟨hq, hq2⟩
                · exact hq
                · exact absurd hq2 hp1ne
                · omega
              rw [hlo1eq] at hl1 hlo1
              refine ⟨hpos, lo2, by omega, ?_, hd2⟩
              have e1 : seg tokens lo2 pos = seg tokens lo2 (pos1 - 1) ++ seg tokens pos1 pos :=
                seg_split tokens lo2 pos1 pos (by omega) (by omega) (by omega)
              have e2 : seg tokens pos1 pos = seg tokens pos1 pos1 ++ seg tokens (pos1 + 1) pos := by
                have e := seg_split tokens pos1 (pos1 + 1) pos (by omega) (by omega) (by omega)
                simpa using e
              have e3 : seg tokens pos1 pos1 = [Token.OpSub] := seg_single tokens pos1 _ h2
              rw [e1, e2, e3, tokenNums_append, tokenNums_append]
              simp only [leaves, List.reverse_append]
              rw [hl1, hl2]
              simp [tokenNums, numOf]
            | err e => simp only [h3] at h; cases h
            | noFuel => simp only [h3] at h; cases h
          case OpMod =>
            simp only [h2] at h
            cases h3 : parseGo fuel GKind.expr tokens (usub1 pos1) with
            | ok rhs pos2 =>
              simp only [h3] at h
              cases h
              obtain ⟨hpos, lo1, hlo1, hl1, hd1⟩ := ih _ _ _ _ _ hlen h1
              obtain ⟨hpos2, lo2, hlo2, hl2, hd2⟩ := ih _ _ _ _ _ hlen h3
              obtain ⟨hp1lt, -⟩ := List.get?_eq_some.mp h2
              have hp1ne : pos1 ≠ 0 := by
                intro h0
                rw [h0] at hpos2
                simp [usub1] at hpos2
                omega
              have husub : usub1 pos1 = pos1 - 1 := by simp [usub1, hp1ne]
              rw [husub] at hpos2 hlo2 hl2
              have hlo1eq : lo1 = pos1 + 1 := by
                rcases hd1 with hq | ⟨hq, hq2⟩ | ⟨hq, hq2⟩
                · exact hq
                · exact absurd hq2 hp1ne
                · omega
              rw [hlo1eq] at hl1 hlo1
              refine ⟨hpos, lo2, by omega, ?_, hd2⟩
              have e1 : seg tokens lo2 pos = seg tokens lo2 (pos1 - 1) ++ seg tokens pos1 pos :=
                seg_split tokens lo2 pos1 pos (by omega) (by omega) (by omega)
              have e2 : seg tokens pos1 pos = seg tokens pos1 pos1 ++ seg tokens (pos1 + 1) pos := by
                have e := seg_split tokens pos1 (pos1 + 1) pos (by omega) (by omega) (by omega)
                simpa using e
              have e3 : seg tokens pos1 pos1 = [Token.OpMod] := seg_single tokens pos1 _ h2
              rw [e1, e2, e3, tokenNums_append, tokenNums_append]
              simp only [leaves, List.reverse_append]
              rw [hl1, hl2]
              simp [tokenNums, numOf]
            | err e => simp only [h3] at h; cases h
            | noFuel => simp only [h3] at h; cases h
          all_goals simp only [h2] at h
          all_goals cases h
          all_goals exact ih _ _ _ _ _ hlen h1
      | err e => simp only [h1] at h; cases h
      | noFuel => simp only [h1] at h; cases h
    | term =>
      simp only [parseGo] at h
      cases h1 : parseGo fuel GKind.factor tokens pos with
      | ok lhs pos1 =>
        simp only [h1] at h
        cases h2 : tokens.get? pos1 with
        | none =>
          simp only [h2] at h
          cases h
          exact ih _ _ _ _ _ hlen h1
        | some tok =>
          cases tok
          case OpMult =>
            simp only [h2] at h
            cases h3 : parseGo fuel GKind.term tokens (usub1 pos1) with
            | ok rhs pos2 =>
              simp only [h3] at h
              cases h
              obtain ⟨hpos, lo1, hlo1, hl1, hd1⟩ := ih _ _ _ _ _ hlen h1
              obtain ⟨hpos2, lo2, hlo2, hl2, hd2⟩ := ih _ _ _ _ _ hlen h3
              obtain ⟨hp1lt, -⟩ := List.get?_eq_some.mp h2
              have hp1ne : pos1 ≠ 0 := by
                intro h0
                rw [h0] at hpos2
                simp [usub1] at hpos2
                omega
              have husub : usub1 pos1 = pos1 - 1 := by simp [usub1, hp1ne]
              rw [husub] at hpos2 hlo2 hl2
              have hlo1eq : lo1 = pos1 + 1 := by
                rcases hd1 with hq | ⟨hq, hq2⟩ | ⟨hq, hq2⟩
                · exact hq
                · exact absurd hq2 hp1ne
                · omega
              rw [hlo1eq] at hl1 hlo1
              refine ⟨hpos, lo2, by omega, ?_, hd2⟩
              have e1 : seg tokens lo2 pos = seg tokens lo2 (pos1 - 1) ++ seg tokens pos1 pos :=
                seg_split tokens lo2 pos1 pos (by omega) (by omega) (by omega)
              have e2 : seg tokens pos1 pos = seg tokens pos1 pos1 ++ seg tokens (pos1 + 1) pos := by
                have e := seg_split tokens pos1 (pos1 + 1) pos (by omega) (by omega) (by omega)
                simpa using e
              have e3 : seg tokens pos1 pos1 = [Token.OpMult] := seg_single tokens pos1 _ h2
              rw [e1, e2, e3, tokenNums_append, tokenNums_append]
              simp only [leaves, List.reverse_append]
              rw [hl1, hl2]
              simp [tokenNums, numOf]
            | err e => simp only [h3] at h; cases h
            | noFuel => simp only [h3] at h; cases h
          case OpDiv =>
            simp only [h2] at h
            cases h3 : parseGo fuel GKind.term tokens (usub1 pos1) with
            | ok rhs pos2 =>
              simp only [h3] at h
              cases h
              obtain ⟨hpos, lo1, hlo1, hl1, hd1⟩ := ih _ _ _ _ _ hlen h1
              obtain ⟨hpos2, lo2, hlo2, hl2, hd2⟩ := ih _ _ _ _ _ hlen h3
              obtain ⟨hp1lt, -⟩ := List.get?_eq_some.mp h2
              have hp1ne : pos1 ≠ 0 := by
                intro h0
                rw [h0] at hpos2
                simp [usub1] at hpos2
                omega
              have husub : usub1 pos1 = pos1 - 1 := by simp [usub1, hp1ne]
              rw [husub] at hpos2 hlo2 hl2
              have hlo1eq : lo1 = pos1 + 1 := by
                rcases hd1 with hq | ⟨hq, hq2⟩ | ⟨hq, hq2⟩
                · exact hq
                · exact absurd hq2 hp1ne
                · omega
              rw [hlo1eq] at hl1 hlo1
              refine ⟨hpos, lo2, by omega, ?_, hd2⟩
              have e1 : seg tokens lo2 pos = seg tokens lo2 (pos1 - 1) ++ seg tokens pos1 pos :=
                seg_split tokens lo2 pos1 pos (by omega) (by omega) (by omega)
              have e2 : seg tokens pos1 pos = seg tokens pos1 pos1 ++ seg tokens (pos1 + 1) pos := by
                have e := seg_split tokens pos1 (pos1 + 1) pos (by omega) (by omega) (by omega)
                simpa using e
              have e3 : seg tokens pos1 pos1 = [Token.OpDiv] := seg_single tokens pos1 _ h2
              rw [e1, e2, e3, tokenNums_append, tokenNums_append]
              simp only [leaves, List.reverse_append]
              rw [hl1, hl2]
              simp [tokenNums, numOf]
            | err e => simp only [h3] at h; cases h
            | noFuel => simp only [h3] at h; cases h
          all_goals simp only [h2] at h
          all_goals cases h
          all_goals exact ih _ _ _ _ _ hlen h1
      | err e => simp only [h1] at h; cases h
      | noFuel => simp only [h1] at h; cases h
    | factor =>
      simp only [parseGo] at h
      cases h1 : parseGo fuel GKind.exponent tokens pos with
      | ok lhs pos1 =>
        simp only [h1] at h
        cases h2 : tokens.get? pos1 with
        | none =>
          simp only [h2] at h
          cases h
          exact ih _ _ _ _ _ hlen h1
        | some tok =>
          cases tok
          case OpExp =>
            simp only [h2] at h
            cases h3 : parseGo fuel GKind.factor tokens (usub1 pos1) with
            | ok rhs pos2 =>
              simp only [h3] at h
              cases h
              obtain ⟨hpos, lo1, hlo1, hl1, hd1⟩ := ih _ _ _ _ _ hlen h1
              obtain ⟨hpos2, lo2, hlo2, hl2, hd2⟩ := ih _ _ _ _ _ hlen h3
              obtain ⟨hp1lt, -⟩ := List.get?_eq_some.mp h2
              have hp1ne : pos1 ≠ 0 := by
                intro h0
                rw [h0] at hpos2
                simp [usub1] at hpos2
                omega
              have husub : usub1 pos1 = pos1 - 1 := by simp [usub1, hp1ne]
              rw [husub] at hpos2 hlo2 hl2
              have hlo1eq : lo1 = pos1 + 1 := by
                rcases hd1 with hq | ⟨hq, hq2⟩ | ⟨hq, hq2⟩
                · exact hq
                · exact absurd hq2 hp1ne
                · omega
              rw [hlo1eq] at hl1 hlo1
              refine ⟨hpos, lo2, by omega, ?_, hd2⟩
              have e1 : seg tokens lo2 pos = seg tokens lo2 (pos1 - 1) ++ seg tokens pos1 pos :=
                seg_split tokens lo2 pos1 pos (by omega) (by omega) (by omega)
              have e2 : seg tokens pos1 pos = seg tokens pos1 pos1 ++ seg tokens (pos1 + 1) pos := by
                have e := seg_split tokens pos1 (pos1 + 1) pos (by omega) (by omega) (by omega)
                simpa using e
              have e3 : seg tokens pos1 pos1 = [Token.OpExp] := seg_single tokens pos1 _ h2
              rw [e1, e2, e3, tokenNums_append, tokenNums_append]
              simp only [leaves, List.reverse_append]
              rw [hl1, hl2]
              simp [tokenNums, numOf]
            | err e => simp only [h3] at h; cases h
            | noFuel => simp only [h3] at h; cases h
          all_goals simp only [h2] at h
          all_goals cases h
          all_goals exact ih _ _ _ _ _ hlen h1
      | err e => simp only [h1] at h; cases h
      | noFuel => simp only [h1] at h; cases h
    | exponent =>
      simp only [parseGo] at h
      cases h2 : tokens.get? pos with
      | none => simp only [h2] at h; cases h
      | some tok =>
        cases tok
        case Number n =>
          simp only [h2] at h
          cases h
          obtain ⟨hlt, -⟩ := List.get?_eq_some.mp h2
          refine ⟨hlt, pos, le_refl pos, ?_, ?_⟩
          · rw [seg_single tokens pos _ h2]
            simp [leaves, tokenNums, numOf]
          · by_cases h0 : pos = 0
            · subst h0
              right
              right
              exact ⟨rfl, by simp [usub1]⟩
            · left
              have hx : usub1 pos = pos - 1 := by simp [usub1, h0]
              rw [hx]
              omega
        case RightParen =>
          simp only [h2] at h
          cases h3 : parseGo fuel GKind.expr tokens (usub1 pos) with
          | ok node pos2 =>
            simp only [h3] at h
            cases h4 : tokens.get? pos2 with
            | none => simp only [h4] at h; cases h
            | some tk2 =>
              cases tk2
              case LeftParen =>
                simp only [h2, h4] at h
                obtain ⟨hinlt, lo2, hlo2, hl2, hd2⟩ := ih _ _ _ _ _ hlen h3
                obtain ⟨hposlt, -⟩ := List.get?_eq_some.mp h2
                obtain ⟨hpos2lt, -⟩ := List.get?_eq_some.mp h4
                have hpne : pos ≠ 0 := by
                  intro h0
                  rw [h0] at hinlt
                  simp [usub1] at hinlt
                  omega
                have husub : usub1 pos = pos - 1 := by simp [usub1, hpne]
                rw [husub] at hinlt hlo2 hl2
                have hp2ne : pos2 ≠ usizeMax := by omega
                by_cases h5 : pos2 = 0
                · rw [if_pos h5] at h
                  cases h
                  subst h5
                  refine ⟨hposlt, 0, Nat.zero_le _, ?_, Or.inr (Or.inl ⟨rfl, rfl⟩)⟩
                  rcases hd2 with h6 | ⟨h6, -⟩ | ⟨h6, h7⟩
                  · have h6x : lo2 = 1 := by omega
                    rw [h6x] at hl2
                    have e1 : seg tokens 0 pos = seg tokens 0 0 ++ seg tokens 1 pos :=
                      seg_split tokens 0 1 pos (by omega) (by omega) (by omega)
                    have e2 : seg tokens 1 pos = seg tokens 1 (pos - 1) ++ seg tokens pos pos :=
                      seg_split tokens 1 pos pos (by omega) (by omega) (by omega)
                    have e3 : seg tokens 0 0 = [Token.LeftParen] := seg_single tokens 0 _ h4
                    have e4 : seg tokens pos pos = [Token.RightParen] := seg_single tokens pos _ h2
                    rw [e1, e2, e3, e4, tokenNums_append, tokenNums_append]
                    simp only [leaves]
                    rw [hl2]
                    simp [tokenNums, numOf]
                  · rw [h6] at hl2
                    have e1 : seg tokens 0 pos = seg tokens 0 (pos - 1) ++ seg tokens pos pos :=
                      seg_split tokens 0 pos pos (by omega) (by omega) (by omega)
                    have e4 : seg tokens pos pos = [Token.RightParen] := seg_single tokens pos _ h2
                    rw [e1, e4, tokenNums_append]
                    simp only [leaves]
                    rw [hl2]
                    simp [tokenNums, numOf]
                  · exact absurd h7 hp2ne
                · rw [if_neg h5] at h
                  cases h
                  have hlo2eq : lo2 = pos2 + 1 := by
                    rcases hd2 with h6 | ⟨h6, h7⟩ | ⟨h6, h7⟩
                    · exact h6
                    · exact absurd h7 h5
                    · exact absurd h7 hp2ne
                  rw [hlo2eq] at hl2 hlo2
                  refine ⟨hposlt, pos2, by omega, ?_, Or.inl (by omega)⟩
                  have e1 : seg tokens pos2 pos = seg tokens pos2 pos2 ++ seg tokens (pos2 + 1) pos := by
                    have e := seg_split tokens pos2 (pos2 + 1) pos (by omega) (by omega) (by omega)
                    simpa using e
                  have e2 : seg tokens (pos2 + 1) pos = seg tokens (pos2 + 1) (pos - 1) ++ seg tokens pos pos :=
                    seg_split tokens (pos2 + 1) pos pos (by omega) (by omega) (by omega)
                  have e3 : seg tokens pos2 pos2 = [Token.LeftParen] := seg_single tokens pos2 _ h4
                  have e4 : seg tokens pos pos = [Token.RightParen] := seg_single tokens pos _ h2
                  rw [e1, e2, e3, e4, tokenNums_append, tokenNums_append]
                  simp only [leaves]
                  rw [hl2]
                  simp [tokenNums, numOf]
              all_goals simp only [h4] at h
              all_goals cases h
          | err e => simp only [h3] at h; cases h
          | noFuel => simp only [h3] at h; cases h
        all_goals simp only [h2] at h
        all_goals cases h

/-- Token-order mirroring at the top level: the literal leaves of every
tree a successful `parse` returns read, left to right, as the reverse of
the input's number tokens — except that the token at index 0 may have been
left unconsumed (the end-of-input check cannot tell, claim C6). -/
theorem parse_leaves (toks : List Token) (t : ParseNode)
    (hlen : toks.length ≤ usizeMax)
    (h : parse (Except.ok toks) = ParseOutcome.ok t) :
    ∃ lo, lo ≤ 1 ∧ (leaves t).reverse = tokenNums (toks.drop lo) := by
  simp only [parse] at h
  cases h1 : parse_expr (parseFuel toks) toks (usub1 toks.length) with
  | ok node pos =>
    simp only [h1] at h
    by_cases hp : pos = 0
    · rw [if_pos hp] at h
      cases h
      subst hp
      obtain ⟨hlt, lo, hlo, hl, hd⟩ :=
        parseGo_leaves (parseFuel toks) GKind.expr toks (usub1 toks.length) node 0 hlen h1
      have hne : toks.length ≠ 0 := by
        intro h0
        rw [h0] at hlt
        simp [usub1] at hlt
      have husub : usub1 toks.length = toks.length - 1 := by simp [usub1, hne]
      rw [husub] at hlt hlo hl
      have hlo01 : lo ≤ 1 := by
        rcases hd with hx | ⟨hx, -⟩ | ⟨-, hx⟩
        · omega
        · omega
        · simp [usizeMax] at hx
      refine ⟨lo, hlo01, ?_⟩
      rw [leaves_withRootType, hl, seg_all toks lo (by omega) (by omega)]
    · rw [if_neg hp] at h
      cases h4 : toks.get? pos with
      | some tk => simp only [h4] at h; cases h
      | none => simp only [h4] at h; cases h
  | err e => simp only [h1] at h; cases h
  | noFuel => simp only [h1] at h; cases h

/-! ## Evaluator stack lemmas -/

/-- Building the execution stack appends some block on top of this node's
own terminal: the root's terminal is always the deepest entry pushed onto
the incoming stack. -/
theorem build_exec_stack_shape :
    ∀ (t : ParseNode) (s : List Terminal),
      ∃ M, build_exec_stack t s = M ++ t.terminal :: s
  | .mk none r ty term nt d, s =>
    ⟨[], by simp [build_exec_stack, ParseNode.terminal]⟩
  | .mk (some l) none ty term nt d, s => by
    obtain ⟨M1, h1⟩ := build_exec_stack_shape l (term :: s)
    refine ⟨M1 ++ [l.terminal], ?_⟩
    simp [build_exec_stack, ParseNode.terminal, h1]
  | .mk (some l) (some r) ty term nt d, s => by
    obtain ⟨M1, h1⟩ := build_exec_stack_shape l (term :: s)
    obtain ⟨M2, h2⟩ := build_exec_stack_shape r (M1 ++ l.terminal :: term :: s)
    refine ⟨M2 ++ r.terminal :: M1 ++ [l.terminal], ?_⟩
    simp only [build_exec_stack]
    rw [h1, h2]
    simp [ParseNode.terminal]

/-- The pop loop never hits the unchecked operator `unwrap` as long as the
bottom of the stack holds a non-literal terminal: a literal popped in
operand position always still has the bottom entry beneath it. -/
theorem evalLoop_no_unwrap (b : Terminal) (hb : ∀ m, b ≠ Terminal.Literal m) :
    ∀ (N : Nat) (L : List Terminal), L.length ≤ N → ∀ (r : Int),
      evalLoop (L ++ [b]) r ≠ EvalOutcome.panic unwrapMsg := by
  intro N
  induction N with
  | zero =>
    intro L hL r
    have hL0 : L = [] := List.length_eq_zero.mp (Nat.le_zero.mp hL)
    subst hL0
    simp only [List.nil_append]
    cases b
    case Literal m => exact absurd rfl (hb m)
    all_goals simp [evalLoop]
  | succ N ihN =>
    intro L hL r
    cases L with
    | nil =>
      simp only [List.nil_append]
      cases b
      case Literal m => exact absurd rfl (hb m)
      all_goals simp [evalLoop]
    | cons v L1 =>
      simp only [List.cons_append]
      cases v
      case Literal n =>
        cases L1 with
        | nil =>
          simp only [List.nil_append]
          cases b
          case Literal m => exact absurd rfl (hb m)
          case Mod =>
            simp only [evalLoop]
            split_ifs <;> first | decide | simp [evalLoop]
          case Div =>
            simp only [evalLoop]
            split_ifs <;> first | decide | simp [evalLoop]
          all_goals simp [evalLoop]
        | cons op L2 =>
          simp only [List.cons_append]
          have hlen : L2.length ≤ N := by
            simp only [List.length_cons] at hL
            omega
          cases op
          case Sum => simp only [evalLoop]; exact ihN L2 hlen _
          case Sub => simp only [evalLoop]; exact ihN L2 hlen _
          case Mult => simp only [evalLoop]; exact ihN L2 hlen _
          case Exp => simp only [evalLoop]; exact ihN L2 hlen _
          case Paren => simp only [evalLoop]; exact ihN L2 hlen _
          case Literal m => simp [evalLoop]
          case Mod =>
            simp only [evalLoop]
            split_ifs <;> first | decide | exact ihN L2 hlen _
          case Div =>
            simp only [evalLoop]
            split_ifs <;> first | decide | exact ihN L2 hlen _
      all_goals simp [evalLoop]

/-! ## Claim theorems: concrete pipeline behaviour -/

/-- Claim C1.  The spec says `evaluate(parse(lex("2+3*4")))` succeeds with
14 and `evaluate(parse(lex("(2+3)*4")))` succeeds with 20.  The code does
neither: parsing `2+3*4` wraps the position past index 0 and panics on the
out-of-bounds `tokens[pos]` in the leftover-input branch (a debug build
panics at the `usize` underflow itself), and the parse of `(2+3)*4` that
does succeed is rejected by the stack evaluator with
"vm: Expected integer literal" when the `Paren` terminal is popped in
operand position. -/
theorem c1_precedence_code_behaviour :
    parse (lex "2+3*4") = ParseOutcome.panic "index out of bounds" ∧
    evalParsed "(2+3)*4" = some (EvalOutcome.err "vm: Expected integer literal") :=
  ⟨rfl, rfl⟩

/-- Claim C2.  The spec says `evaluate(parse(lex("8-3-2")))` succeeds with
3.  The code never evaluates: parsing `8-3-2` consumes the number at index 0,
wraps the position, and panics on the out-of-bounds `tokens[pos]` in the
leftover-input branch (a debug build panics at the underflow). -/
theorem c2_left_assoc_code_behaviour :
    parse (lex "8-3-2") = ParseOutcome.panic "index out of bounds" := rfl

/-- Claim C4.  The spec says `evaluate(parse(lex("2^3^2")))` succeeds with
512.  The code never evaluates: parsing `2^3^2` wraps the position past
index 0 and panics exactly as for C2. -/
theorem c4_exponent_code_behaviour :
    parse (lex "2^3^2") = ParseOutcome.panic "index out of bounds" := rfl

/-- Claim C5.  The spec says division or modulo by zero yields an explicit
division-by-zero error and never panics.  The code checks only division:
on `2 3%0` (which parses, into `Mod(Literal 0, Literal 3)`) the evaluator
reaches `result %= n` with `n = 0` and panics with Rust's
remainder-by-zero message; and the showcase input `5/0` already panics in
the parser before any evaluation. -/
theorem c5_division_by_zero_code_behaviour :
    evalParsed "2 3%0" = some (EvalOutcome.panic remZeroMsg) ∧
    parse (lex "5/0") = ParseOutcome.panic "index out of bounds" :=
  ⟨rfl, rfl⟩

/-- Claim C6.  The spec says leftover tokens make `parse` fail with
"expected end of input", e.g. on `2 2`.  The code instead succeeds on
`2 2`: it parses only the second `2`, returns to position 0 with the first
token unconsumed, and the `pos == 0` success test cannot tell "all tokens
consumed" from "exactly the token at index 0 left over", so the root
returned is the leaf for the second `2`. -/
theorem c6_end_of_input_code_behaviour :
    parse (lex "2 2") =
      ParseOutcome.ok (ParseNode.mk none none NodeType.Root
        (Terminal.Literal 2) NonTerminal.Exponent 0) := rfl

/-- Claim C7.  The spec says `parse(lex("(2+3"))` fails reporting a missing
closing parenthesis.  The code instead succeeds: scanning right to left it
parses `2+3` (as `Sum(Literal 3, Literal 2)`), reaches position 0 with the
`(` unconsumed, and the `pos == 0` check accepts.  (The second half of the
claim does hold: `()` is rejected, with "Unexpected token LeftParen".) -/
theorem c7_unbalanced_paren_code_behaviour :
    parse (lex "(2+3") =
      ParseOutcome.ok (ParseNode.mk
        (some (ParseNode.mk none none NodeType.Leaf (Terminal.Literal 3)
          NonTerminal.Exponent 0))
        (some (ParseNode.mk none none NodeType.Leaf (Terminal.Literal 2)
          NonTerminal.Exponent 0))
        NodeType.Root Terminal.Sum NonTerminal.Expression 1) ∧
    parse (lex "()") =
      ParseOutcome.err ⟨"Unexpected token LeftParen", 0, []⟩ :=
  ⟨rfl, rfl⟩

/-- Claim C3, counterexample.  The claim says a successful parse puts the
textually left operand in the left child and folds chains left-leaning.
Parsing `(2)+3` succeeds and produces `Sum` with **left** child
`Literal 3` — the operand to the right of the `+` — and right child
`Paren(Literal 2)`, refuting the claim. -/
theorem c3_counterexample_left_child_is_right_operand :
    parse (lex "(2)+3") =
      ParseOutcome.ok (ParseNode.mk
        (some (ParseNode.mk none none NodeType.Leaf (Terminal.Literal 3)
          NonTerminal.Exponent 0))
        (some (ParseNode.mk
          (some (ParseNode.mk none none NodeType.Leaf (Terminal.Literal 2)
            NonTerminal.Exponent 0))
          none NodeType.Branch Terminal.Paren NonTerminal.Exponent 1))
        NodeType.Root Terminal.Sum NonTerminal.Expression 1) := rfl

/-- Concrete illustration of the amended C3: `(1)-2-3` parses into the
right-leaning, operand-mirrored tree
`Sub(Literal 3, Sub(Literal 2, Paren(Literal 1)))`. -/
theorem parse_right_leaning_example :
    parse (lex "(1)-2-3") =
      ParseOutcome.ok (ParseNode.mk
        (some (ParseNode.mk none none NodeType.Leaf (Terminal.Literal 3)
          NonTerminal.Exponent 0))
        (some (ParseNode.mk
          (some (ParseNode.mk none none NodeType.Leaf (Terminal.Literal 2)
            NonTerminal.Exponent 0))
          (some (ParseNode.mk
            (some (ParseNode.mk none none NodeType.Leaf (Terminal.Literal 1)
              NonTerminal.Exponent 0))
            none NodeType.Branch Terminal.Paren NonTerminal.Exponent 1))
          NodeType.Branch Terminal.Sub NonTerminal.Expression 1))
        NodeType.Root Terminal.Sub NonTerminal.Expression 1) := rfl

/-- Claim C3 as amended.  The parser scans the token vector right to left,
so for every input accepted by `parse`: (a) same-precedence chains fold
into a **right-leaning** tree — a `Sum`/`Sub`/`Mod` Branch never has a
`Sum`/`Sub`/`Mod` left child, a `Mult`/`Div` Branch never a `Mult`/`Div`
left child, an `Exp` Branch never an `Exp` left child — and (b) operand
placement is mirrored: each Branch's left child holds the operand parsed
first, the one that appeared to the **right** of the operator, so the
tree's left-to-right literal sequence is the reverse of the input's number
sequence (up to the token at index 0, which the end-of-input slip of C6 can
leave unconsumed). -/
theorem c3_amended_right_leaning_mirrored (toks : List Token) (t : ParseNode)
    (hlen : toks.length ≤ usizeMax)
    (h : parse (Except.ok toks) = ParseOutcome.ok t) :
    rightSkewed t = true ∧
      ∃ lo, lo ≤ 1 ∧ (leaves t).reverse = tokenNums (toks.drop lo) :=
  ⟨parse_ok_rightSkewed (Except.ok toks) t h, parse_leaves toks t hlen h⟩

/-- Witness for the amended C3 at the tokens of `(1)-2-3`, whose parse is
`Sub(Literal 3, Sub(Literal 2, Paren(Literal 1)))`. -/
theorem c3_amended_right_leaning_mirrored_witness :
    rightSkewed (ParseNode.mk
      (some (ParseNode.mk none none NodeType.Leaf (Terminal.Literal 3)
        NonTerminal.Exponent 0))
      (some (ParseNode.mk
        (some (ParseNode.mk none none NodeType.Leaf (Terminal.Literal 2)
          NonTerminal.Exponent 0))
        (some (ParseNode.mk
          (some (ParseNode.mk none none NodeType.Leaf (Terminal.Literal 1)
            NonTerminal.Exponent 0))
          none NodeType.Branch Terminal.Paren NonTerminal.Exponent 1))
        NodeType.Branch Terminal.Sub NonTerminal.Expression 1))
      NodeType.Root Terminal.Sub NonTerminal.Expression 1) = true ∧
    ∃ lo, lo ≤ 1 ∧
      (leaves (ParseNode.mk
      (some (ParseNode.mk none none NodeType.Leaf (Terminal.Literal 3)
        NonTerminal.Exponent 0))
      (some (ParseNode.mk
        (some (ParseNode.mk none none NodeType.Leaf (Terminal.Literal 2)
          NonTerminal.Exponent 0))
        (some (ParseNode.mk
          (some (ParseNode.mk none none NodeType.Leaf (Terminal.Literal 1)
            NonTerminal.Exponent 0))
          none NodeType.Branch Terminal.Paren NonTerminal.Exponent 1))
        NodeType.Branch Terminal.Sub NonTerminal.Expression 1))
      NodeType.Root Terminal.Sub NonTerminal.Expression 1)).reverse =
        tokenNums ([Token.LeftParen, Token.Number 1, Token.RightParen,
          Token.OpSub, Token.Number 2, Token.OpSub, Token.Number 3].drop lo) :=
  c3_amended_right_leaning_mirrored
    [Token.LeftParen, Token.Number 1, Token.RightParen, Token.OpSub,
      Token.Number 2, Token.OpSub, Token.Number 3]
    (ParseNode.mk
      (some (ParseNode.mk none none NodeType.Leaf (Terminal.Literal 3)
        NonTerminal.Exponent 0))
      (some (ParseNode.mk
        (some (ParseNode.mk none none NodeType.Leaf (Terminal.Literal 2)
          NonTerminal.Exponent 0))
        (some (ParseNode.mk
          (some (ParseNode.mk none none NodeType.Leaf (Terminal.Literal 1)
            NonTerminal.Exponent 0))
          none NodeType.Branch Terminal.Paren NonTerminal.Exponent 1))
        NodeType.Branch Terminal.Sub NonTerminal.Expression 1))
      NodeType.Root Terminal.Sub NonTerminal.Expression 1)
    (by decide) rfl

/-- Claim C9, counterexample.  The claimed invariant — every node's depth
strictly greater than the depth of each child — fails on the successful
parse of `(5)%6`: the root `Mod` node has depth 1 (left literal's depth
plus one) while its right child, the `Paren` node, also has depth 1. -/
theorem c9_counterexample_depth_not_above_children :
    (parsedTree "(5)%6").map depthGtChildren = some false := rfl

/-- Claim C9 as amended.  The depth invariant the parser maintains in every
tree a successful `parse` returns: each node with a left child has `depth`
exactly that child's depth plus one — strictly greater than the **left**
child's depth, while the right child's depth may equal or exceed the
parent's. -/
theorem c9_amended_depth_above_left_child (tks : Except LexerError (List Token))
    (t : ParseNode) (h : parse tks = ParseOutcome.ok t) :
    depthLeftInv t = true :=
  (parse_ok_inv tks t h).2

/-- Witness for the amended C9 on the parse of `(7)`. -/
theorem c9_amended_depth_above_left_child_witness :
    depthLeftInv (ParseNode.mk
      (some (ParseNode.mk none none NodeType.Leaf (Terminal.Literal 7)
        NonTerminal.Exponent 0))
      none NodeType.Root Terminal.Paren NonTerminal.Exponent 1) = true :=
  c9_amended_depth_above_left_child (lex "(7)") _ rfl

/-- Claim C10.  For every tree a successful `parse` returns, the two
unchecked `unwrap`ed stack pops inside `evaluate` never panic: the execution
stack is non-empty at the initial pop (the root's terminal is always
pushed, at the bottom), and when a popped literal is followed by an operator
pop the stack is still non-empty, because a literal can sit at the bottom
only when the whole tree is a single leaf, whose stack the initial pop
already consumed. -/
theorem c10_unwrapped_pops_never_panic (tks : Except LexerError (List Token))
    (t : ParseNode) (h : parse tks = ParseOutcome.ok t) :
    evaluate t ≠ EvalOutcome.panic unwrapMsg := by
  obtain ⟨hr, _⟩ := parse_ok_inv tks t h
  cases t with
  | mk l r ty term nt d =>
    by_cases hlit : ∃ m, term = Terminal.Literal m
    · obtain ⟨m, hm⟩ := hlit
      subst hm
      simp only [rootOk] at hr
      rw [Bool.and_eq_true] at hr
      have hl : l = none := Option.isNone_iff_eq_none.mp hr.1
      have hrn : r = none := Option.isNone_iff_eq_none.mp hr.2
      subst hl
      subst hrn
      simp [evaluate, build_exec_stack, evalLoop]
    · push_neg at hlit
      obtain ⟨M, hM⟩ := build_exec_stack_shape (ParseNode.mk l r ty term nt d) []
      simp only [ParseNode.terminal] at hM
      simp only [evaluate, hM]
      cases M with
      | nil =>
        simp only [List.nil_append]
        cases term
        all_goals first
          | exact absurd rfl (hlit _)
          | simp [evalLoop]
      | cons m0 M1 =>
        simp only [List.cons_append]
        cases m0
        all_goals exact evalLoop_no_unwrap term hlit M1.length M1 le_rfl _

/-- Witness for C10 on the parse of `(2+3)*4`. -/
theorem c10_unwrapped_pops_never_panic_witness :
    evaluate (ParseNode.mk
      (some (ParseNode.mk none none NodeType.Leaf (Terminal.Literal 4)
        NonTerminal.Exponent 0))
      (some (ParseNode.mk
        (some (ParseNode.mk
          (some (ParseNode.mk none none NodeType.Leaf (Terminal.Literal 3)
            NonTerminal.Exponent 0))
          (some (ParseNode.mk none none NodeType.Leaf (Terminal.Literal 2)
            NonTerminal.Exponent 0))
          NodeType.Branch Terminal.Sum NonTerminal.Expression 1))
        none NodeType.Branch Terminal.Paren NonTerminal.Exponent 2))
      NodeType.Root Terminal.Mult NonTerminal.Term 1) ≠
      EvalOutcome.panic unwrapMsg :=
  c10_unwrapped_pops_never_panic (lex "(2+3)*4") _ rfl

end ExprParser
